import Mathlib

/-!
# Verification of the pylearn2 dataset cache (`pylearn2/datasets/cache.py`)

This file gives a shallow embedding of `DatasetCache` and proves/refutes the
frozen claims about it.  The embedding models:

* the filesystem as an explicit state (`FS`): existing directories and regular
  files, per-file sizes, the `statvfs` statistics of the filesystem holding the
  local cache directory, a set of permission-protected paths where `os.mkdir`
  fails, whether the shell `cp` command fails, and the current microsecond
  timestamp (`int(time.time() * 1e6)`);
* fallible `os` primitives as `Except IOErr`-valued functions; a Python
  exception that the coordinator does not catch becomes an `Except.error` of
  the whole run, exactly mirroring uncaught propagation;
* lock/marker activity with an event trace (`Ev`): write-lock acquisition and
  release (Theano `compilelock`), reader-marker creation, and shell commands
  run through `os.system`;
* the interleaving of other processes while this one blocks in
  `compilelock.get_lock` as an explicit environment step `env : FS → FS`
  applied at the lock-acquisition point (the reason the source re-checks free
  space inside the lock); a solo run is `env = id`;
* the float literal `0.90` of `check_enough_space` as the exact rational
  `9/10` (the comparison `used + need < total * 0.90` is embedded as
  `10 * (used + need) < 9 * total`).

Stdlib helpers used by the source (`os.path.join`, `os.path.relpath`,
`os.path.split`, `"%i"` decimal formatting) are modelled by executable
definitions below; `relpath` is modelled for the common case where the path
lies under the start directory, other cases (which would need `..` segments)
are abstracted as returning the path itself.  Console output (`_write`) has no
filesystem effect and is not modelled; `atexit` registration is exit-time
behaviour outside a single run and is not modelled.
-/

/-- An uncaught Python exception from one of the `os` primitives. -/
inductive IOErr where
  | statvfsErr (path : String)
  | getsizeErr (path : String)
  | mkdirPerm (path : String)
  | mkdirExists (path : String)
  | mkdirNoParent (path : String)
  deriving DecidableEq, Repr

instance {ε α : Type} [DecidableEq ε] [DecidableEq α] : DecidableEq (Except ε α) := fun x y =>
  match x, y with
  | .ok a, .ok b =>
    if h : a = b then isTrue (by rw [h]) else isFalse (by intro he; cases he; exact h rfl)
  | .error a, .error b =>
    if h : a = b then isTrue (by rw [h]) else isFalse (by intro he; cases he; exact h rfl)
  | .ok _, .error _ => isFalse (by intro he; cases he)
  | .error _, .ok _ => isFalse (by intro he; cases he)

/-- Observable locking / copying events of one `load_dataset` run. -/
inductive Ev where
  | lockAcquire (name : String)
  | lockRelease
  | readLock (dirName : String)
  | system (command : String)
  deriving DecidableEq, Repr

/-- Filesystem state visible to the cache coordinator. -/
structure FS where
  /-- existing directories (stored with no trailing slash, except `"/"`). -/
  dirs : List String
  /-- existing regular files. -/
  files : List String
  /-- sizes of files, as reported by `os.path.getsize`. -/
  sizes : List (String × Nat)
  /-- Field of `statvfs` for the local-cache filesystem: `f_blocks * f_frsize`. -/
  total : Nat
  /-- Field of `statvfs`: `(f_blocks - f_bfree) * f_frsize`. -/
  used : Nat
  /-- paths where `os.mkdir` / `os.makedirs` raises a permission error. -/
  prot : List String
  /-- the shell command `cp src dst` exits nonzero and produces no file. -/
  cpFails : Bool
  /-- Value of `int(time.time() * 1e6)` at the moment `getReadLock` runs. -/
  now : Nat
  deriving DecidableEq, Repr

/-- The configuration a `DatasetCache.__init__` run produces. -/
structure Config where
  dataset_remote_dir : String
  dataset_local_dir : String
  pid : Nat
  deriving DecidableEq, Repr

/-- Python `s.split(sep)` on character lists: `"".split` gives `[""]`. -/
def splitOnChar (sep : Char) : List Char → List (List Char)
  | [] => [[]]
  | c :: cs =>
    match splitOnChar sep cs with
    | [] => [[]]
    | w :: ws => if c = sep then [] :: w :: ws else (c :: w) :: ws

/-- Python `"/".join` on character lists. -/
def joinWithSlash : List (List Char) → List Char
  | [] => []
  | [w] => w
  | w :: ws => w ++ '/' :: joinWithSlash ws

/-- Drop one trailing `'/'` (a directory path and the same path with a
trailing slash denote the same directory); the root `"/"` is kept. -/
def stripSlash (p : String) : String :=
  if p ≠ "/" ∧ p.data.getLast? = some '/' then String.mk p.data.dropLast else p

/-- Models `os.path.exists`. -/
def existsP (fs : FS) (p : String) : Bool :=
  fs.dirs.contains (stripSlash p) || fs.files.contains (stripSlash p)

/-- Models `os.path.isfile`. -/
def isfileP (fs : FS) (p : String) : Bool :=
  fs.files.contains (stripSlash p)

/-- Answer of `os.path.getsize` for an existing path (0 if unrecorded). -/
def sizeAt (fs : FS) (p : String) : Nat :=
  ((fs.sizes.find? (fun e => e.1 == stripSlash p)).map Prod.snd).getD 0

/-- Models `os.path.getsize`: raises on a missing path. -/
def getsizeE (fs : FS) (p : String) : Except IOErr Nat :=
  if existsP fs p then .ok (sizeAt fs p) else .error (.getsizeErr p)

/-- Models `os.path.split(p)[0]` (also `os.path.dirname`). -/
def osSplitHead (p : String) : String :=
  let parts := splitOnChar '/' p.data
  if parts.length ≤ 1 then ""
  else
    let head := joinWithSlash parts.dropLast
    if head = [] then "/" else String.mk head

/-- Models `os.path.join` for POSIX paths. -/
def osJoin (a b : String) : String :=
  if b.data.head? = some '/' then b
  else if a = "" then b
  else if a.data.getLast? = some '/' then a ++ b
  else a ++ "/" ++ b

/-- Modelled behaviour of `os.path.relpath(p, start)` for the common case
where `p` lies under `start`; the remaining cases (which would need `..`
segments) are abstracted as returning `p` itself. -/
def relpath (p start : String) : String :=
  let s := stripSlash start
  if p = s then "."
  else if (s.data ++ ['/']).isPrefixOf p.data then
    String.mk (p.data.drop (s.data.length + 1))
  else p

/-- The directory `os.mkdir p` needs to exist (empty for relative one-component
paths, i.e. creation in the working directory). -/
def parentDir (p : String) : String := osSplitHead (stripSlash p)

/-- Models `os.mkdir`: raises on a protected path, an existing path, or a missing
parent; otherwise records the new directory. -/
def os_mkdir (fs : FS) (p : String) : Except IOErr FS :=
  let q := stripSlash p
  if fs.prot.contains q then .error (.mkdirPerm p)
  else if existsP fs q then .error (.mkdirExists p)
  else if parentDir q ≠ "" && !(existsP fs (parentDir q)) then .error (.mkdirNoParent p)
  else .ok { fs with dirs := q :: fs.dirs }

/-- The `intermediaryFolders` list of `safe_mkdir`: `folderName.split("/")`, with a
trailing empty element removed. -/
def intermediaryFolders (folderName : String) : List (List Char) :=
  let comps := splitOnChar '/' folderName.data
  if comps.getLast? = some [] then comps.dropLast else comps

/-- The `i`-th folder `safe_mkdir` tries: `"/".join(folders[:i+1]) + "/"`. -/
def mkPrefix (comps : List (List Char)) (i : Nat) : String :=
  String.mk (joinWithSlash (comps.take (i + 1)) ++ ['/'])

/-- The successive `folderToCreate` values of the `safe_mkdir` loop. -/
def prefixesOf (folderName : String) : List String :=
  (List.range (intermediaryFolders folderName).length).map
    (mkPrefix (intermediaryFolders folderName))

/-- One iteration of the `safe_mkdir` loop: `if not exists: try mkdir except:
pass` — the bare `except` swallows every error. -/
def safeMkdirStep (fs : FS) (folderToCreate : String) : FS :=
  if existsP fs folderToCreate then fs
  else
    match os_mkdir fs folderToCreate with
    | .ok fs' => fs'
    | .error _ => fs

/-- Models `DatasetCache.safe_mkdir`. -/
def safe_mkdir (fs : FS) (folderName : String) : FS :=
  (prefixesOf folderName).foldl safeMkdirStep fs

/-- Models `os.makedirs`: creates every missing ancestor, and raises (uncaught) on a
protected component. -/
def makedirsE (fs : FS) (name : String) : Except IOErr FS :=
  (prefixesOf name).foldlM
    (fun f q => if existsP f q then pure f else os_mkdir f q) fs

/-- Models `DatasetCache.disk_usage`: `os.statvfs` of `path`, as `(total, used)`. -/
def disk_usage (fs : FS) (path : String) : Except IOErr (Nat × Nat) :=
  if existsP fs path then .ok (fs.total, fs.used) else .error (.statvfsErr path)

/-- Models `DatasetCache.check_enough_space`.  The float comparison
`(used + need) < (total * 0.90)` is embedded exactly as the rational
inequality `10 * (used + need) < 9 * total`. -/
def check_enough_space (c : Config) (fs : FS) (remote_fname local_fname : String) :
    Except IOErr Bool :=
  match getsizeE fs remote_fname with
  | .error e => .error e
  | .ok storage_need =>
    match disk_usage fs c.dataset_local_dir with
    | .error e => .error e
    | .ok (storage_total, storage_used) =>
      .ok (decide (10 * (storage_used + storage_need) < 9 * storage_total))

/-- The shell command `copy_from_server_to_local` builds:
`'cp ' + remote_fname + ' ' + local_fname`, with no quoting. -/
def copyCommand (remote_fname local_fname : String) : String :=
  "cp " ++ remote_fname ++ " " ++ local_fname

/-- Record the freshly copied file: it now exists, has the remote's size, and
its bytes are charged against the local filesystem's used space. -/
def addFile (fs : FS) (p : String) (sz : Nat) : FS :=
  { fs with files := stripSlash p :: fs.files,
            sizes := (stripSlash p, sz) :: fs.sizes,
            used := fs.used + sz }

/-- The shell executing `cp src dst` under `os.system`: returns the exit
status; on failure (`cpFails`) the status is nonzero and no file appears. -/
def os_system_cp (fs : FS) (src dst : String) : Nat × FS :=
  if fs.cpFails then (1, fs) else (0, addFile fs dst (sizeAt fs src))

/-- Models `DatasetCache.copy_from_server_to_local`.  Note that the result of
`os.system` is discarded by the source, so a failing copy is not detected. -/
def copy_from_server_to_local (fs : FS) (remote_fname local_fname : String) :
    Except IOErr (FS × List Ev) :=
  let head := osSplitHead local_fname ++ "/"
  let step1 : Except IOErr FS :=
    if !(existsP fs head) then makedirsE fs (osSplitHead head) else .ok fs
  match step1 with
  | .error e => .error e
  | .ok fs1 =>
    let command := copyCommand remote_fname local_fname
    let res := os_system_cp fs1 remote_fname local_fname
    .ok (res.2, [Ev.system command])

/-- The name of the folder lock `getWriteLock` hands to
`compilelock.get_lock`: `filename + ".writelock"`. -/
def getWriteLockName (filename : String) : String := filename ++ ".writelock"

/-- Fuel-driven worker for `natDigitsRev` (structural recursion so that the
definition evaluates definitionally). -/
def natDigitsRevAux : Nat → Nat → List Char
  | 0, _ => []
  | fuel + 1, n =>
    Nat.digitChar (n % 10) :: (if n < 10 then [] else natDigitsRevAux fuel (n / 10))

/-- Decimal digits of `n`, least significant first (the digits `"%i"` emits,
reversed). -/
def natDigitsRev (n : Nat) : List Char := natDigitsRevAux (n + 1) n

/-- Python `"%i" % n` for a natural number. -/
def natRepr (n : Nat) : String := String.mk (natDigitsRev n).reverse

/-- The reader-marker directory name `getReadLock` builds:
`"%s.readlock.%i.%i" % (path, pid, timestamp)`. -/
def readlockName (path : String) (pid timestamp : Nat) : String :=
  path ++ ".readlock." ++ natRepr pid ++ "." ++ natRepr timestamp

/-- Models `DatasetCache.getReadLock`: `os.mkdir` of the marker directory (uncaught
on failure); the `atexit` release registration is exit-time behaviour and not
part of a single run. -/
def getReadLock (c : Config) (fs : FS) (path : String) : Except IOErr (FS × String) :=
  let lockdirName := readlockName path c.pid fs.now
  match os_mkdir fs lockdirName with
  | .error e => .error e
  | .ok fs' => .ok (fs', lockdirName)

/-- The local path a remote file is cached at:
`os.path.join(local_dir, os.path.relpath(remote_name, remote_dir))`. -/
def mappedLocal (c : Config) (remote_name : String) : String :=
  osJoin c.dataset_local_dir (relpath remote_name c.dataset_remote_dir)

/-- Models `DatasetCache.load_dataset`.  Here `env` is the activity of other processes
while this one blocks in `compilelock.get_lock` (the serialization point);
a run with no interference is `env = id`.  The result carries the returned
path, the final filesystem, and the lock/copy event trace. -/
def load_dataset (c : Config) (env : FS → FS) (fs : FS) (remote_name : String) :
    Except IOErr (String × FS × List Ev) :=
  if c.dataset_local_dir = "" then .ok (remote_name, fs, [])
  else if !(existsP fs remote_name) then .ok (remote_name, fs, [])
  else if !(isfileP fs remote_name) then .ok (remote_name, fs, [])
  else
    let fs1 := safe_mkdir fs c.dataset_local_dir
    let local_name := mappedLocal c remote_name
    match check_enough_space c fs1 remote_name local_name with
    | .error e => .error e
    | .ok false => .ok (remote_name, fs1, [])
    | .ok true =>
      let fs2 := safe_mkdir fs1 (osSplitHead local_name)
      let wl := getWriteLockName local_name
      let fs3 := env fs2
      if !(existsP fs3 local_name) then
        match check_enough_space c fs3 remote_name local_name with
        | .error e => .error e
        | .ok false => .ok (remote_name, fs3, [Ev.lockAcquire wl, Ev.lockRelease])
        | .ok true =>
          match copy_from_server_to_local fs3 remote_name local_name with
          | .error e => .error e
          | .ok (fs4, evs) =>
            match getReadLock c fs4 local_name with
            | .error e => .error e
            | .ok (fs5, rl) =>
              .ok (local_name, fs5, Ev.lockAcquire wl :: evs ++ [Ev.readLock rl, Ev.lockRelease])
      else
        match getReadLock c fs3 local_name with
        | .error e => .error e
        | .ok (fs4, rl) =>
          .ok (local_name, fs4, [Ev.lockAcquire wl, Ev.readLock rl, Ev.lockRelease])

/-- A character the POSIX shell treats literally inside an unquoted word:
neither whitespace (field splitting) nor a shell metacharacter. -/
def shellSafeChar (c : Char) : Bool :=
  !(c = ' ' || c = '\t' || c = '\n' || c = ';' || c = '&' || c = '|' ||
    c = '<' || c = '>' || c = '(' || c = ')' || c = '$' || c = '\\' ||
    c = '"' || c = '\x27' || c = '\x60' || c = '*' || c = '?' || c = '[' ||
    c = ']' || c = '#' || c = '~')

/-- Accumulator worker for `shellWords`. -/
def shellWordsAux : List Char → List Char → List (List Char)
  | [], acc => if acc = [] then [] else [acc.reverse]
  | c :: cs, acc =>
    if c = ' ' then
      (if acc = [] then shellWordsAux cs [] else acc.reverse :: shellWordsAux cs [])
    else shellWordsAux cs (c :: acc)

/-- POSIX field splitting of an unquoted command line on spaces: the word
list the shell hands to `execve` when no metacharacter is involved. -/
def shellWords (l : List Char) : List (List Char) := shellWordsAux l []

/-- The number a little-endian list of decimal digit characters denotes. -/
def valRev : List Char → Nat
  | [] => 0
  | c :: cs => (c.toNat - 48) + 10 * valRev cs

/-- Run `load_dataset` a second time (same configuration, no interference) on
the state a first run produced, and report the returned path. -/
def secondCall (c : Config) (r : String) (res : Except IOErr (String × FS × List Ev)) :
    Option String :=
  match res with
  | .ok (_, fs1, _) => (load_dataset c id fs1 r).toOption.map (fun x => x.1)
  | .error _ => none

/-! ## Basic string lemmas -/

theorem data_append (a b : String) : (a ++ b).data = a.data ++ b.data := by
  cases a; cases b; rfl

theorem string_ext {a b : String} (h : a.data = b.data) : a = b := by
  cases a; cases b; exact congrArg String.mk (by simpa using h)

/-! ## C1: the write lock gating copy decisions -/

/-- C1 counterexample: the lock name `getWriteLock` passes to
`compilelock.get_lock` is `filename + ".writelock"`, so two distinct paths
acquire two distinct named locks — not one global lock. -/
theorem c1_per_file_lock_cex :
    "/cache/a" ≠ "/cache/b" ∧
      getWriteLockName "/cache/a" ≠ getWriteLockName "/cache/b" := by
  decide

/-- C1 amended: the named lock `getWriteLock` acquires is per file, not
global: two invocations acquire the same named lock exactly when they are for
the same path. -/
theorem c1_per_file_lock (p q : String) :
    getWriteLockName p = getWriteLockName q ↔ p = q := by
  constructor
  · intro h
    have hd : p.data ++ ".writelock".data = q.data ++ ".writelock".data := by
      have h2 := congrArg String.data h
      simpa [getWriteLockName, data_append] using h2
    have hlen : p.data.length = q.data.length := by
      have h3 := congrArg List.length hd
      rw [List.length_append, List.length_append] at h3
      omega
    exact string_ext (List.append_inj hd hlen).1
  · intro h; rw [h]

/-- C1 witness: the amended statement at a concrete input. -/
theorem c1_per_file_lock_witness :
    getWriteLockName "/cache/a" = getWriteLockName "/cache/a" ↔ "/cache/a" = "/cache/a" :=
  c1_per_file_lock "/cache/a" "/cache/a"

/-! ## C6: deactivated local cache is a pure passthrough -/

/-- C6: with no local root configured (`dataset_local_dir = ""`),
`load_dataset` returns its input unchanged, with an unchanged filesystem and
an empty event trace. -/
theorem c6_disabled_cache_passthrough (c : Config) (e : FS → FS) (f : FS) (r : String)
    (h : c.dataset_local_dir = "") :
    load_dataset c e f r = .ok (r, f, []) := by
  unfold load_dataset
  simp [h]

/-- C6 witness. -/
theorem c6_disabled_cache_passthrough_witness :
    load_dataset ⟨"/remote", "", 7⟩ id ⟨["/"], [], [], 0, 0, [], false, 0⟩ "/remote/a"
      = .ok ("/remote/a", ⟨["/"], [], [], 0, 0, [], false, 0⟩, []) :=
  c6_disabled_cache_passthrough ⟨"/remote", "", 7⟩ id ⟨["/"], [], [], 0, 0, [], false, 0⟩
    "/remote/a" rfl

/-! ## C5: missing or non-file input is a passthrough -/

/-- C5: if the input path does not exist or is not a regular file,
`load_dataset` returns that same path, with an unchanged filesystem and an
empty event trace (no lock acquisition, no copy). -/
theorem c5_missing_input_passthrough (c : Config) (e : FS → FS) (f : FS) (r : String)
    (h : existsP f r = false ∨ isfileP f r = false) :
    load_dataset c e f r = .ok (r, f, []) := by
  unfold load_dataset
  by_cases hl : c.dataset_local_dir = ""
  · simp [hl]
  · rcases h with h | h
    · simp [hl, h]
    · by_cases he : existsP f r
      · simp [hl, he, h]
      · simp [hl, he]

/-- C5 witness: a nonexistent input path is returned unchanged. -/
theorem c5_missing_input_passthrough_witness :
    load_dataset ⟨"/remote", "/local", 7⟩ id ⟨["/"], [], [], 0, 0, [], false, 0⟩ "/remote/nope"
      = .ok ("/remote/nope", ⟨["/"], [], [], 0, 0, [], false, 0⟩, []) :=
  c5_missing_input_passthrough ⟨"/remote", "/local", 7⟩ id ⟨["/"], [], [], 0, 0, [], false, 0⟩
    "/remote/nope" (Or.inl (by decide))

/-! ## C10: the raw shell copy command -/

theorem shellWordsAux_no_space (A : List Char) :
    ∀ (l acc : List Char), (∀ a ∈ A, a ≠ ' ') →
      shellWordsAux (A ++ l) acc = shellWordsAux l (A.reverse ++ acc) := by
  induction A with
  | nil => intro l acc _; simp
  | cons c A ih =>
    intro l acc h
    have hc : c ≠ ' ' := h c (by simp)
    have hA : ∀ a ∈ A, a ≠ ' ' := fun a ha => h a (by simp [ha])
    simp only [List.cons_append, shellWordsAux, if_neg hc]
    show shellWordsAux (A ++ l) (c :: acc) = _
    rw [ih l (c :: acc) hA]
    simp [List.append_assoc]

theorem shellWords_word_cons (A rest : List Char) (hA : A ≠ [])
    (hs : ∀ a ∈ A, a ≠ ' ') :
    shellWords (A ++ ' ' :: rest) = A :: shellWords rest := by
  unfold shellWords
  rw [shellWordsAux_no_space A (' ' :: rest) [] hs]
  have hrev : A.reverse ++ [] ≠ [] := by simpa using hA
  simp only [shellWordsAux, if_pos rfl, if_neg hrev]
  simp

theorem shellWords_single (A : List Char) (hA : A ≠ []) (hs : ∀ a ∈ A, a ≠ ' ') :
    shellWords A = [A] := by
  unfold shellWords
  have h := shellWordsAux_no_space A [] [] hs
  rw [List.append_nil] at h
  rw [h]
  have hrev : A.reverse ++ [] ≠ [] := by simpa using hA
  simp only [shellWordsAux, if_neg hrev]
  simp

theorem shellSafeChar_ne_space {c : Char} (h : shellSafeChar c = true) : c ≠ ' ' := by
  intro he; subst he; exact absurd h (by decide)

/-- C10: `copy_from_server_to_local` builds its command by raw concatenation
(`'cp ' + remote + ' ' + local`) with no quoting: when both paths are
nonempty and free of whitespace and shell metacharacters, the shell's field
splitting yields exactly `cp` with the two intended arguments; a path
containing a space already breaks this (the second conjunct), so the intended
copy is only guaranteed under that precondition. -/
theorem c10_shell_copy_command :
    (∀ r l : String, r.data ≠ [] → l.data ≠ [] →
        (∀ ch ∈ r.data, shellSafeChar ch = true) →
        (∀ ch ∈ l.data, shellSafeChar ch = true) →
        shellWords (copyCommand r l).data = [['c', 'p'], r.data, l.data]) ∧
      shellWords (copyCommand "a b" "/local/out").data ≠
        [['c', 'p'], "a b".data, "/local/out".data] := by
  constructor
  · intro r l hr hl hsr hsl
    have hdata : (copyCommand r l).data = ['c', 'p'] ++ ' ' :: (r.data ++ ' ' :: l.data) := by
      show ("cp " ++ r ++ " " ++ l).data = _
      rw [data_append, data_append, data_append]
      have h1 : "cp ".data = ['c', 'p', ' '] := rfl
      have h2 : " ".data = [' '] := rfl
      rw [h1, h2]
      simp
    rw [hdata,
      shellWords_word_cons ['c', 'p'] _ (by decide) (by decide),
      shellWords_word_cons r.data _ hr (fun a ha => shellSafeChar_ne_space (hsr a ha)),
      shellWords_single l.data hl (fun a ha => shellSafeChar_ne_space (hsl a ha))]
  · decide

/-- C10 witness: safe paths parse into the intended three words. -/
theorem c10_shell_copy_command_witness :
    shellWords (copyCommand "/remote/a" "/local/a").data =
      [['c', 'p'], "/remote/a".data, "/local/a".data] :=
  c10_shell_copy_command.1 "/remote/a" "/local/a" (by decide) (by decide) (by decide) (by decide)

/-! ## C9: reader-marker names are collision-free per (path, pid, timestamp) -/

theorem digitChar_toNat {d : Nat} (hd : d < 10) : (Nat.digitChar d).toNat - 48 = d := by
  interval_cases d <;> decide

theorem digitChar_isDigit {d : Nat} (hd : d < 10) : (Nat.digitChar d).isDigit = true := by
  interval_cases d <;> decide

theorem valRev_natDigitsRevAux :
    ∀ (fuel n : Nat), n < fuel → valRev (natDigitsRevAux fuel n) = n := by
  intro fuel
  induction fuel with
  | zero => intro n h; omega
  | succ fuel ih =>
    intro n h
    have hd := digitChar_toNat (show n % 10 < 10 by omega)
    by_cases h10 : n < 10
    · simp only [natDigitsRevAux, if_pos h10, valRev]
      omega
    · simp only [natDigitsRevAux, if_neg h10, valRev]
      rw [ih (n / 10) (by omega)]
      omega

theorem valRev_natDigitsRev (n : Nat) : valRev (natDigitsRev n) = n :=
  valRev_natDigitsRevAux (n + 1) n (by omega)

theorem natDigitsRev_inj {m n : Nat} (h : natDigitsRev m = natDigitsRev n) : m = n := by
  have hm := valRev_natDigitsRev m
  rw [h, valRev_natDigitsRev] at hm
  omega

theorem natRepr_inj {m n : Nat} (h : natRepr m = natRepr n) : m = n := by
  unfold natRepr at h
  have h2 : (natDigitsRev m).reverse = (natDigitsRev n).reverse := by
    have h3 := congrArg String.data h
    simpa using h3
  exact natDigitsRev_inj (List.reverse_injective h2)

theorem natDigitsRevAux_digits :
    ∀ (fuel n : Nat), ∀ c ∈ natDigitsRevAux fuel n, c.isDigit = true := by
  intro fuel
  induction fuel with
  | zero => intro n c hc; simp [natDigitsRevAux] at hc
  | succ fuel ih =>
    intro n c hc
    simp only [natDigitsRevAux] at hc
    rcases List.mem_cons.mp hc with hc | hc
    · subst hc; exact digitChar_isDigit (show n % 10 < 10 by omega)
    · by_cases h10 : n < 10
      · rw [if_pos h10] at hc; simp at hc
      · rw [if_neg h10] at hc; exact ih (n / 10) c hc

theorem natDigitsRev_digits (n : Nat) : ∀ c ∈ natDigitsRev n, c.isDigit = true :=
  natDigitsRevAux_digits (n + 1) n

theorem natDigitsRev_rev_digits (n : Nat) : ∀ c ∈ (natDigitsRev n).reverse, c.isDigit = true := by
  intro c hc
  exact natDigitsRev_digits n c (List.mem_reverse.mp hc)

theorem takeWhile_app {p : Char → Bool} :
    ∀ (A : List Char) (c : Char) (r : List Char), (∀ a ∈ A, p a = true) → p c = false →
      (A ++ c :: r).takeWhile p = A := by
  intro A
  induction A with
  | nil => intro c r _ hc; simp [List.takeWhile, hc]
  | cons a A ih =>
    intro c r h hc
    have ha : p a = true := h a (by simp)
    simp only [List.cons_append, List.takeWhile, ha]
    show a :: List.takeWhile p (A ++ c :: r) = a :: A
    rw [ih c r (fun x hx => h x (by simp [hx])) hc]

theorem dropWhile_app {p : Char → Bool} :
    ∀ (A : List Char) (c : Char) (r : List Char), (∀ a ∈ A, p a = true) → p c = false →
      (A ++ c :: r).dropWhile p = c :: r := by
  intro A
  induction A with
  | nil => intro c r _ hc; simp [List.dropWhile, hc]
  | cons a A ih =>
    intro c r h hc
    have ha : p a = true := h a (by simp)
    simp only [List.cons_append, List.dropWhile, ha]
    show List.dropWhile p (A ++ c :: r) = c :: r
    exact ih c r (fun x hx => h x (by simp [hx])) hc

theorem readlockName_rev (p : String) (i t : Nat) :
    (readlockName p i t).data.reverse =
      natDigitsRev t ++ '.' :: (natDigitsRev i ++
        '.' :: 'k' :: 'c' :: 'o' :: 'l' :: 'd' :: 'a' :: 'e' :: 'r' :: '.' :: p.data.reverse) := by
  unfold readlockName natRepr
  rw [data_append, data_append, data_append, data_append]
  have h1 : ".readlock.".data = ['.', 'r', 'e', 'a', 'd', 'l', 'o', 'c', 'k', '.'] := rfl
  have h2 : ".".data = ['.'] := rfl
  rw [h1, h2]
  simp [List.reverse_append]

/-- C9: the reader-marker directory name
`"%s.readlock.%i.%i" % (path, pid, timestamp)` is injective in the triple
(path, pid, timestamp): two invocations differing in path, holder pid, or
microsecond timestamp never produce colliding marker names. -/
theorem c9_readlock_name_injective {p₁ p₂ : String} {i₁ i₂ t₁ t₂ : Nat}
    (h : readlockName p₁ i₁ t₁ = readlockName p₂ i₂ t₂) :
    p₁ = p₂ ∧ i₁ = i₂ ∧ t₁ = t₂ := by
  have hrev : (readlockName p₁ i₁ t₁).data.reverse = (readlockName p₂ i₂ t₂).data.reverse := by
    rw [h]
  rw [readlockName_rev, readlockName_rev] at hrev
  have h1 := congrArg (List.takeWhile Char.isDigit) hrev
  rw [takeWhile_app _ _ _ (natDigitsRev_digits t₁) (by decide),
      takeWhile_app _ _ _ (natDigitsRev_digits t₂) (by decide)] at h1
  have ht : t₁ = t₂ := natDigitsRev_inj h1
  have h2 := congrArg (List.dropWhile Char.isDigit) hrev
  rw [dropWhile_app _ _ _ (natDigitsRev_digits t₁) (by decide),
      dropWhile_app _ _ _ (natDigitsRev_digits t₂) (by decide)] at h2
  simp only [List.cons.injEq, true_and] at h2
  have h3 := congrArg (List.takeWhile Char.isDigit) h2
  rw [takeWhile_app _ _ _ (natDigitsRev_digits i₁) (by decide),
      takeWhile_app _ _ _ (natDigitsRev_digits i₂) (by decide)] at h3
  have hi : i₁ = i₂ := natDigitsRev_inj h3
  have h4 := congrArg (List.dropWhile Char.isDigit) h2
  rw [dropWhile_app _ _ _ (natDigitsRev_digits i₁) (by decide),
      dropWhile_app _ _ _ (natDigitsRev_digits i₂) (by decide)] at h4
  have h5 := congrArg (List.drop 10) h4
  simp only [List.drop] at h5
  exact ⟨string_ext (List.reverse_injective h5), hi, ht⟩

/-- C9 witness: the statement applied at a concrete triple. -/
theorem c9_readlock_name_injective_witness :
    "/local/a" = "/local/a" ∧ 7 = 7 ∧ 123456 = 123456 :=
  @c9_readlock_name_injective "/local/a" "/local/a" 7 7 123456 123456 rfl

/-! ## C4: the 90%-ceiling free-space policy and its two fail-open branches -/

/-- C4: (1) for an existing remote file and an existing local root,
`check_enough_space` passes exactly when `used + size` stays under `9/10` of
`total`; (2) if the pre-lock check fails, `load_dataset` returns the remote
path with no lock event and no copy event (empty trace); (3) if the re-check
inside the lock fails for a file not present locally, `load_dataset` releases
the lock and returns the remote path (trace = acquire, release; no copy). -/
theorem c4_space_ceiling :
    (∀ (c : Config) (f : FS) (r l : String), existsP f r = true →
        existsP f c.dataset_local_dir = true →
        (check_enough_space c f r l = .ok true ↔
          10 * (f.used + sizeAt f r) < 9 * f.total)) ∧
    (∀ (c : Config) (e : FS → FS) (f : FS) (r : String),
        c.dataset_local_dir ≠ "" → existsP f r = true → isfileP f r = true →
        check_enough_space c (safe_mkdir f c.dataset_local_dir) r (mappedLocal c r) = .ok false →
        load_dataset c e f r = .ok (r, safe_mkdir f c.dataset_local_dir, [])) ∧
    (∀ (c : Config) (e : FS → FS) (f : FS) (r : String),
        c.dataset_local_dir ≠ "" → existsP f r = true → isfileP f r = true →
        check_enough_space c (safe_mkdir f c.dataset_local_dir) r (mappedLocal c r) = .ok true →
        existsP (e (safe_mkdir (safe_mkdir f c.dataset_local_dir)
          (osSplitHead (mappedLocal c r)))) (mappedLocal c r) = false →
        check_enough_space c (e (safe_mkdir (safe_mkdir f c.dataset_local_dir)
          (osSplitHead (mappedLocal c r)))) r (mappedLocal c r) = .ok false →
        load_dataset c e f r = .ok (r,
          e (safe_mkdir (safe_mkdir f c.dataset_local_dir) (osSplitHead (mappedLocal c r))),
          [Ev.lockAcquire (getWriteLockName (mappedLocal c r)), Ev.lockRelease])) := by
  refine ⟨?_, ?_, ?_⟩
  · intro c f r l he hd
    unfold check_enough_space getsizeE disk_usage
    rw [if_pos he, if_pos hd]
    simp
  · intro c e f r hl he hf hck
    unfold load_dataset
    simp [hl, he, hf, hck]
  · intro c e f r hl he hf hck1 hne hck2
    unfold load_dataset
    simp [hl, he, hf, hck1, hne, hck2]

/-- C4 witness: a run in which the pre-lock check passes, another process
fills the disk while this one waits for the lock, and the in-lock re-check
fails: the lock is released and the remote path returned. -/
theorem c4_space_ceiling_witness :
    load_dataset ⟨"/remote", "/local", 7⟩ (fun f => { f with used := 95 })
        ⟨["/", "/remote", "/local"], ["/remote/a"], [("/remote/a", 20)], 100, 50, [], false, 0⟩
        "/remote/a"
      = .ok ("/remote/a",
          ⟨["/", "/remote", "/local"], ["/remote/a"], [("/remote/a", 20)], 100, 95, [], false, 0⟩,
          [Ev.lockAcquire "/local/a.writelock", Ev.lockRelease]) :=
  c4_space_ceiling.2.2 ⟨"/remote", "/local", 7⟩ (fun f => { f with used := 95 })
    ⟨["/", "/remote", "/local"], ["/remote/a"], [("/remote/a", 20)], 100, 50, [], false, 0⟩
    "/remote/a" (by decide) (by decide) (by decide) (by decide) (by decide) (by decide)

/-! ## C2: the reader marker is acquired before the write lock is released -/

theorem copy_evs {f : FS} {r l : String} {g : FS} {evs : List Ev}
    (h : copy_from_server_to_local f r l = .ok (g, evs)) :
    evs = [Ev.system (copyCommand r l)] := by
  unfold copy_from_server_to_local at h
  dsimp only [] at h
  split at h
  · exact absurd h (by simp)
  · simp only [Except.ok.injEq, Prod.mk.injEq] at h
    exact h.2.symm

/-- Classification of every `load_dataset` run, tracking the returned path:
an uncaught error; the remote path with no events; the remote path after the
fail-open in-lock re-check (exactly acquire then release — no copy is
performed and the remote path is served); or the mapped local path, in which
case the reader marker is acquired between the lock acquisition and the
release, with or without a copy command in between. -/
theorem load_run_shape (c : Config) (e : FS → FS) (f : FS) (r : String) :
    (∃ er, load_dataset c e f r = .error er) ∨
    (∃ g, load_dataset c e f r = .ok (r, g, [])) ∨
    (∃ g, load_dataset c e f r = .ok (r, g,
      [Ev.lockAcquire (getWriteLockName (mappedLocal c r)), Ev.lockRelease])) ∨
    (∃ g d, load_dataset c e f r = .ok (mappedLocal c r, g,
      [Ev.lockAcquire (getWriteLockName (mappedLocal c r)), Ev.readLock d,
        Ev.lockRelease])) ∨
    (∃ g s d, load_dataset c e f r = .ok (mappedLocal c r, g,
      [Ev.lockAcquire (getWriteLockName (mappedLocal c r)), Ev.system s, Ev.readLock d,
        Ev.lockRelease])) := by
  by_cases h1 : c.dataset_local_dir = ""
  · exact Or.inr (Or.inl ⟨f, by unfold load_dataset; simp [h1]⟩)
  by_cases h2 : existsP f r = true
  case neg => exact Or.inr (Or.inl ⟨f, by unfold load_dataset; simp [h1, h2]⟩)
  by_cases h3 : isfileP f r = true
  case neg => exact Or.inr (Or.inl ⟨f, by unfold load_dataset; simp [h1, h2, h3]⟩)
  cases hck : check_enough_space c (safe_mkdir f c.dataset_local_dir) r (mappedLocal c r) with
  | error er =>
    exact Or.inl ⟨er, by unfold load_dataset; simp [h1, h2, h3, hck]⟩
  | ok b =>
    cases b with
    | false =>
      exact Or.inr (Or.inl ⟨safe_mkdir f c.dataset_local_dir, by
        unfold load_dataset; simp [h1, h2, h3, hck]⟩)
    | true =>
      by_cases h4 : existsP (e (safe_mkdir (safe_mkdir f c.dataset_local_dir)
          (osSplitHead (mappedLocal c r)))) (mappedLocal c r) = true
      · cases hrl : getReadLock c (e (safe_mkdir (safe_mkdir f c.dataset_local_dir)
            (osSplitHead (mappedLocal c r)))) (mappedLocal c r) with
        | error er =>
          exact Or.inl ⟨er, by unfold load_dataset; simp [h1, h2, h3, hck, h4, hrl]⟩
        | ok pr =>
          refine Or.inr (Or.inr (Or.inr (Or.inl ⟨pr.1, pr.2, ?_⟩)))
          unfold load_dataset
          simp [h1, h2, h3, hck, h4, hrl]
      · cases hck2 : check_enough_space c (e (safe_mkdir (safe_mkdir f c.dataset_local_dir)
            (osSplitHead (mappedLocal c r)))) r (mappedLocal c r) with
        | error er =>
          exact Or.inl ⟨er, by unfold load_dataset; simp [h1, h2, h3, hck, h4, hck2]⟩
        | ok b2 =>
          cases b2 with
          | false =>
            refine Or.inr (Or.inr (Or.inl ⟨e (safe_mkdir (safe_mkdir f c.dataset_local_dir)
              (osSplitHead (mappedLocal c r))), ?_⟩))
            unfold load_dataset
            simp [h1, h2, h3, hck, h4, hck2]
          | true =>
            cases hcp : copy_from_server_to_local (e (safe_mkdir (safe_mkdir f c.dataset_local_dir)
                (osSplitHead (mappedLocal c r)))) r (mappedLocal c r) with
            | error er =>
              exact Or.inl ⟨er, by unfold load_dataset; simp [h1, h2, h3, hck, h4, hck2, hcp]⟩
            | ok pr =>
              have hevs := copy_evs hcp
              cases hrl : getReadLock c pr.1 (mappedLocal c r) with
              | error er =>
                refine Or.inl ⟨er, ?_⟩
                unfold load_dataset
                simp [h1, h2, h3, hck, h4, hck2, hcp, hrl]
              | ok pr2 =>
                refine Or.inr (Or.inr (Or.inr (Or.inr ⟨pr2.1,
                  copyCommand r (mappedLocal c r), pr2.2, ?_⟩)))
                unfold load_dataset
                simp [h1, h2, h3, hck, h4, hck2, hcp, hrl, hevs]

/-- C2: every successful `load_dataset` run either returns the input remote
path — untouched (empty trace), or via the fail-open in-lock re-check whose
trace is exactly acquire then release (no copy is performed and no reader
marker is needed, since the remote path is served) — or it returns the
mapped local path, and then the trace is acquire, optionally the copy
command, the reader marker, and only then the lock release; in particular,
in every run that returns the local path a reader marker is acquired
strictly before the write lock is released, so there is never a state with
the copy finished, the lock released, and no reader marker present. -/
theorem c2_readlock_before_release {c : Config} {e : FS → FS} {f : FS} {r p : String}
    {g : FS} {t : List Ev} (h : load_dataset c e f r = .ok (p, g, t)) :
    (p = r ∧ t = []) ∨
    (p = r ∧ t = [Ev.lockAcquire (getWriteLockName (mappedLocal c r)), Ev.lockRelease]) ∨
    (p = mappedLocal c r ∧
      (∃ d, t = [Ev.lockAcquire (getWriteLockName (mappedLocal c r)), Ev.readLock d,
          Ev.lockRelease] ∨
        ∃ s, t = [Ev.lockAcquire (getWriteLockName (mappedLocal c r)), Ev.system s,
          Ev.readLock d, Ev.lockRelease]) ∧
      (∀ j, t.get? j = some Ev.lockRelease →
        ∃ i d, i < j ∧ t.get? i = some (Ev.readLock d))) := by
  rcases load_run_shape c e f r with ⟨er, hs⟩ | ⟨g2, hs⟩ | ⟨g2, hs⟩ | ⟨g2, d, hs⟩ |
      ⟨g2, s, d, hs⟩ <;> rw [h] at hs
  · cases hs
  · simp only [Except.ok.injEq, Prod.mk.injEq] at hs
    exact Or.inl ⟨hs.1, hs.2.2⟩
  · simp only [Except.ok.injEq, Prod.mk.injEq] at hs
    exact Or.inr (Or.inl ⟨hs.1, hs.2.2⟩)
  · simp only [Except.ok.injEq, Prod.mk.injEq] at hs
    obtain ⟨hp, -, ht⟩ := hs
    subst ht
    refine Or.inr (Or.inr ⟨hp, ⟨d, Or.inl rfl⟩, ?_⟩)
    intro j hj
    rcases j with _ | _ | _ | j
    · simp at hj
    · simp at hj
    · exact ⟨1, d, by omega, by simp⟩
    · simp at hj
  · simp only [Except.ok.injEq, Prod.mk.injEq] at hs
    obtain ⟨hp, -, ht⟩ := hs
    subst ht
    refine Or.inr (Or.inr ⟨hp, ⟨d, Or.inr ⟨s, rfl⟩⟩, ?_⟩)
    intro j hj
    rcases j with _ | _ | _ | _ | j
    · simp at hj
    · simp at hj
    · simp at hj
    · exact ⟨2, d, by omega, by simp⟩
    · simp at hj

/-- C2 witness: a run that copies and returns the local path lands in the
third branch of the classification — its reader marker (position 2) strictly
precedes the only lock release (position 3). -/
theorem c2_readlock_before_release_witness :
    ("/local/a" = "/remote/a" ∧
        ([Ev.lockAcquire "/local/a.writelock", Ev.system "cp /remote/a /local/a",
          Ev.readLock "/local/a.readlock.7.0", Ev.lockRelease] : List Ev) = []) ∨
    ("/local/a" = "/remote/a" ∧
        [Ev.lockAcquire "/local/a.writelock", Ev.system "cp /remote/a /local/a",
          Ev.readLock "/local/a.readlock.7.0", Ev.lockRelease] =
          [Ev.lockAcquire (getWriteLockName
            (mappedLocal ⟨"/remote", "/local", 7⟩ "/remote/a")), Ev.lockRelease]) ∨
    ("/local/a" = mappedLocal ⟨"/remote", "/local", 7⟩ "/remote/a" ∧
      (∃ d, [Ev.lockAcquire "/local/a.writelock", Ev.system "cp /remote/a /local/a",
            Ev.readLock "/local/a.readlock.7.0", Ev.lockRelease] =
            [Ev.lockAcquire (getWriteLockName
              (mappedLocal ⟨"/remote", "/local", 7⟩ "/remote/a")), Ev.readLock d,
              Ev.lockRelease] ∨
          ∃ s, [Ev.lockAcquire "/local/a.writelock", Ev.system "cp /remote/a /local/a",
            Ev.readLock "/local/a.readlock.7.0", Ev.lockRelease] =
            [Ev.lockAcquire (getWriteLockName
              (mappedLocal ⟨"/remote", "/local", 7⟩ "/remote/a")), Ev.system s,
              Ev.readLock d, Ev.lockRelease]) ∧
      (∀ j, [Ev.lockAcquire "/local/a.writelock", Ev.system "cp /remote/a /local/a",
          Ev.readLock "/local/a.readlock.7.0", Ev.lockRelease].get? j =
            some Ev.lockRelease →
        ∃ i d, i < j ∧
          [Ev.lockAcquire "/local/a.writelock", Ev.system "cp /remote/a /local/a",
            Ev.readLock "/local/a.readlock.7.0", Ev.lockRelease].get? i =
            some (Ev.readLock d))) :=
  @c2_readlock_before_release ⟨"/remote", "/local", 7⟩ id
    ⟨["/", "/remote", "/local"], ["/remote/a"], [("/remote/a", 5)], 100, 10, [], false, 0⟩
    "/remote/a" "/local/a"
    ⟨["/local/a.readlock.7.0", "/", "/remote", "/local"], ["/local/a", "/remote/a"],
      [("/local/a", 5), ("/remote/a", 5)], 100, 15, [], false, 0⟩
    [Ev.lockAcquire "/local/a.writelock", Ev.system "cp /remote/a /local/a",
      Ev.readLock "/local/a.readlock.7.0", Ev.lockRelease]
    (by decide)

/-! ## Monotonicity of directory creation -/

theorem os_mkdir_ok_shape {f g : FS} {p : String} (h : os_mkdir f p = .ok g) :
    g.dirs = stripSlash p :: f.dirs ∧ g.files = f.files := by
  unfold os_mkdir at h
  dsimp only [] at h
  split at h
  · cases h
  · split at h
    · cases h
    · split at h
      · cases h
      · simp only [Except.ok.injEq] at h
        rw [← h]
        exact ⟨rfl, rfl⟩

theorem os_mkdir_mono {f g : FS} {p q : String} (h : os_mkdir f p = .ok g)
    (he : existsP f q = true) : existsP g q = true := by
  obtain ⟨hd, hf⟩ := os_mkdir_ok_shape h
  unfold existsP at he ⊢
  rw [hd, hf]
  have he2 : f.dirs.contains (stripSlash q) = true ∨ f.files.contains (stripSlash q) = true := by
    simpa using he
  rcases he2 with h1 | h1 <;> simp [List.contains_cons] at h1 ⊢ <;> tauto

theorem safeMkdirStep_mono {f : FS} {p q : String} (he : existsP f q = true) :
    existsP (safeMkdirStep f p) q = true := by
  unfold safeMkdirStep
  split
  · exact he
  · cases hm : os_mkdir f p with
    | ok g => exact os_mkdir_mono hm he
    | error er => exact he

theorem safe_mkdir_mono {f : FS} {n q : String} (he : existsP f q = true) :
    existsP (safe_mkdir f n) q = true := by
  unfold safe_mkdir
  generalize prefixesOf n = l
  induction l generalizing f with
  | nil => exact he
  | cons a l ih => exact ih (safeMkdirStep_mono he)

theorem safeMkdirStep_files (f : FS) (p : String) : (safeMkdirStep f p).files = f.files := by
  unfold safeMkdirStep
  split
  · rfl
  · cases hm : os_mkdir f p with
    | ok g => exact (os_mkdir_ok_shape hm).2
    | error er => rfl

theorem safe_mkdir_files (f : FS) (n : String) : (safe_mkdir f n).files = f.files := by
  unfold safe_mkdir
  generalize prefixesOf n = l
  induction l generalizing f with
  | nil => rfl
  | cons a l ih => rw [List.foldl_cons, ih, safeMkdirStep_files]

theorem safe_mkdir_isfile (f : FS) (n q : String) :
    isfileP (safe_mkdir f n) q = isfileP f q := by
  unfold isfileP
  rw [safe_mkdir_files]

/-! ## C3: which filesystem errors actually propagate -/

/-- C3 counterexample: a run in which the `cp` command fails (nonzero exit
status, no file produced): `load_dataset` still returns normally with the
*local* path, the copy command having been issued and the local file absent —
a failed copy is not detected, because `os.system`'s result is discarded. -/
theorem c3_copy_error_swallowed_cex :
    ((load_dataset ⟨"/remote", "/local", 7⟩ id
        ⟨["/", "/remote", "/local"], ["/remote/a"], [("/remote/a", 5)], 100, 10, [], true, 0⟩
        "/remote/a").toOption.map (fun x => x.1) = some "/local/a") ∧
    ((load_dataset ⟨"/remote", "/local", 7⟩ id
        ⟨["/", "/remote", "/local"], ["/remote/a"], [("/remote/a", 5)], 100, 10, [], true, 0⟩
        "/remote/a").toOption.map (fun x => x.2.2) =
      some [Ev.lockAcquire "/local/a.writelock", Ev.system "cp /remote/a /local/a",
        Ev.readLock "/local/a.readlock.7.0", Ev.lockRelease]) ∧
    ((load_dataset ⟨"/remote", "/local", 7⟩ id
        ⟨["/", "/remote", "/local"], ["/remote/a"], [("/remote/a", 5)], 100, 10, [], true, 0⟩
        "/remote/a").toOption.map (fun x => isfileP x.2.1 "/local/a") = some false) := by
  decide

/-- C3 amended: errors raised while statting (`os.statvfs` on a missing local
root) do propagate uncaught out of `load_dataset`; but the copy step's
failure is invisible — `os.system`'s exit status is discarded, so a failed
`cp` leaves `copy_from_server_to_local` returning success with no file
produced (and `load_dataset` then returns the local path, per the
counterexample). -/
theorem c3_error_propagation :
    (∀ (c : Config) (e : FS → FS) (f : FS) (r : String),
        c.dataset_local_dir ≠ "" → existsP f r = true → isfileP f r = true →
        existsP (safe_mkdir f c.dataset_local_dir) c.dataset_local_dir = false →
        load_dataset c e f r = .error (IOErr.statvfsErr c.dataset_local_dir)) ∧
    (∀ (f : FS) (r l : String), f.cpFails = true →
        existsP f (osSplitHead l ++ "/") = true →
        copy_from_server_to_local f r l = .ok (f, [Ev.system (copyCommand r l)])) := by
  constructor
  · intro c e f r hl he hf hd
    have hck : check_enough_space c (safe_mkdir f c.dataset_local_dir) r (mappedLocal c r) =
        .error (.statvfsErr c.dataset_local_dir) := by
      unfold check_enough_space getsizeE disk_usage
      rw [if_pos (safe_mkdir_mono he)]
      simp [hd]
    unfold load_dataset
    simp [hl, he, hf, hck]
  · intro f r l hcp hx
    unfold copy_from_server_to_local os_system_cp
    simp [hx, hcp]

/-- C3 witness: with the local root uncreatable (permission-protected), the
`statvfs` failure inside the space check propagates out of `load_dataset`. -/
theorem c3_error_propagation_witness :
    load_dataset ⟨"/remote", "/local", 7⟩ id
        ⟨["/"], ["/r"], [("/r", 5)], 100, 10, ["/local"], false, 0⟩ "/r"
      = .error (IOErr.statvfsErr "/local") :=
  c3_error_propagation.1 ⟨"/remote", "/local", 7⟩ id
    ⟨["/"], ["/r"], [("/r", 5)], 100, 10, ["/local"], false, 0⟩ "/r"
    (by decide) (by decide) (by decide) (by decide)

/-! ## C8: path-splitting lemmas for `safe_mkdir` -/

theorem splitOnChar_ne_nil (sep : Char) (l : List Char) : splitOnChar sep l ≠ [] := by
  cases l with
  | nil => simp [splitOnChar]
  | cons c cs =>
    simp only [splitOnChar]
    cases hs : splitOnChar sep cs with
    | nil => simp
    | cons w ws => by_cases hc : c = sep <;> simp [hc]

theorem splitOnChar_no_sep (sep : Char) :
    ∀ (l : List Char), ∀ w ∈ splitOnChar sep l, sep ∉ w := by
  intro l
  induction l with
  | nil =>
    intro w hw
    simp [splitOnChar] at hw
    subst hw
    simp
  | cons c cs ih =>
    intro w hw
    simp only [splitOnChar] at hw
    cases hs : splitOnChar sep cs with
    | nil => exact absurd hs (splitOnChar_ne_nil sep cs)
    | cons w0 ws =>
      rw [hs] at hw
      dsimp only [] at hw
      by_cases hc : c = sep
      · rw [if_pos hc] at hw
        rcases List.mem_cons.mp hw with hw | hw
        · subst hw; simp
        · exact ih w (hs ▸ hw)
      · rw [if_neg hc] at hw
        rcases List.mem_cons.mp hw with hw | hw
        · subst hw
          intro hmem
          rcases List.mem_cons.mp hmem with he | he
          · exact hc he.symm
          · exact ih w0 (hs ▸ List.mem_cons_self w0 ws) he
        · exact ih w (hs ▸ List.mem_cons_of_mem w0 hw)

theorem splitOnChar_singleton (sep : Char) :
    ∀ (w : List Char), sep ∉ w → splitOnChar sep w = [w] := by
  intro w
  induction w with
  | nil => intro _; rfl
  | cons c cs ih =>
    intro h
    have hc : ¬ c = sep := fun he => h (by rw [he]; exact List.mem_cons_self sep cs)
    simp only [splitOnChar]
    rw [ih (fun hm => h (List.mem_cons_of_mem c hm))]
    simp [hc]

theorem splitOnChar_append_sep (sep : Char) :
    ∀ (w rest : List Char), sep ∉ w →
      splitOnChar sep (w ++ sep :: rest) = w :: splitOnChar sep rest := by
  intro w
  induction w with
  | nil =>
    intro rest _
    simp only [List.nil_append, splitOnChar]
    cases hs : splitOnChar sep rest with
    | nil => exact absurd hs (splitOnChar_ne_nil sep rest)
    | cons w0 ws => simp
  | cons c cs ih =>
    intro rest h
    have hc : ¬ c = sep := fun he => h (by rw [he]; exact List.mem_cons_self sep cs)
    simp only [List.cons_append, splitOnChar, List.append_eq]
    rw [ih rest (fun hm => h (List.mem_cons_of_mem c hm))]
    simp [hc]

theorem joinWithSlash_eq (w w2 : List Char) (ws : List (List Char)) :
    joinWithSlash (w :: w2 :: ws) = w ++ '/' :: joinWithSlash (w2 :: ws) := rfl

theorem joinWithSlash_cons2_ne (w w2 : List Char) (ws : List (List Char)) :
    joinWithSlash (w :: w2 :: ws) ≠ [] := by
  rw [joinWithSlash_eq]
  simp

theorem getLast?_cons_of_ne_nil {α : Type} {a : α} {l : List α} (h : l ≠ []) :
    (a :: l).getLast? = l.getLast? := by
  cases l with
  | nil => exact absurd rfl h
  | cons b m => exact List.getLast?_cons_cons

theorem splitOnChar_joinWithSlash :
    ∀ (ws : List (List Char)), ws ≠ [] → (∀ w ∈ ws, '/' ∉ w) →
      splitOnChar '/' (joinWithSlash ws) = ws := by
  intro ws
  induction ws with
  | nil => intro h; exact absurd rfl h
  | cons w ws ih =>
    intro _ hw
    cases ws with
    | nil => exact splitOnChar_singleton '/' w (hw w (by simp))
    | cons w2 ws2 =>
      rw [joinWithSlash_eq, splitOnChar_append_sep '/' w _ (hw w (by simp)),
        ih (by simp) (fun x hx => hw x (List.mem_cons_of_mem w hx))]

theorem joinWithSlash_ne_nil_of_tail {w : List Char} {ws : List (List Char)}
    (h : ws ≠ []) : joinWithSlash (w :: ws) ≠ [] := by
  cases ws with
  | nil => exact absurd rfl h
  | cons w2 ws2 => exact joinWithSlash_cons2_ne w w2 ws2

theorem joinWithSlash_concat_getLast :
    ∀ (ws : List (List Char)) (w : List Char), w ≠ [] →
      (joinWithSlash (ws ++ [w])).getLast? = w.getLast? := by
  intro ws
  induction ws with
  | nil => intro w _; rfl
  | cons x ws ih =>
    intro w hne
    have htail : ws ++ [w] ≠ [] := by simp
    rw [List.cons_append]
    have hj : joinWithSlash (x :: (ws ++ [w])) = x ++ '/' :: joinWithSlash (ws ++ [w]) := by
      cases hws : ws ++ [w] with
      | nil => exact absurd hws htail
      | cons y ys => exact joinWithSlash_eq x y ys
    rw [hj, List.getLast?_append_of_ne_nil x (by simp)]
    have hjoin_ne : joinWithSlash (ws ++ [w]) ≠ [] := by
      cases ws with
      | nil => simpa using hne
      | cons y ys => exact joinWithSlash_ne_nil_of_tail (by simp)
    rw [getLast?_cons_of_ne_nil hjoin_ne]
    exact ih w hne

theorem stripSlash_root : stripSlash "/" = "/" := by decide

theorem stripSlash_mk_slash (l : List Char) :
    stripSlash (String.mk (l ++ ['/'])) = if l = [] then "/" else String.mk l := by
  by_cases hl : l = []
  · subst hl
    rw [if_pos rfl]
    decide
  · rw [if_neg hl]
    unfold stripSlash
    rw [if_pos ?_]
    · rw [show (String.mk (l ++ ['/'])).data = l ++ ['/'] from rfl, List.dropLast_concat]
    · constructor
      · intro he
        have h2 := congrArg String.data he
        simp at h2
        exact hl h2
      · rw [show (String.mk (l ++ ['/'])).data = l ++ ['/'] from rfl]
        exact List.getLast?_concat l

theorem stripSlash_eq_self {p : String} (h : p.data.getLast? ≠ some '/') :
    stripSlash p = p := by
  unfold stripSlash
  rw [if_neg (fun hand => h hand.2)]

theorem mkPrefix_strip (comps : List (List Char)) (k : Nat) :
    stripSlash (mkPrefix comps k) =
      if joinWithSlash (comps.take (k + 1)) = [] then "/"
      else String.mk (joinWithSlash (comps.take (k + 1))) :=
  stripSlash_mk_slash _

theorem take_succ_eq (comps : List (List Char)) (k : Nat) (hk : k < comps.length) :
    comps.take (k + 1) = comps.take k ++ [comps.get ⟨k, hk⟩] := by
  have h := List.take_concat_get comps k hk
  rw [List.concat_eq_append] at h
  rw [← h, List.get_eq_getElem]

theorem comps_get_ne_nil {comps : List (List Char)} (htl : ∀ w ∈ comps.tail, w ≠ [])
    {k : Nat} (hk : k < comps.length)
    (hj : joinWithSlash (comps.take (k + 1)) ≠ []) : comps.get ⟨k, hk⟩ ≠ [] := by
  cases comps with
  | nil => simp at hk
  | cons c0 rest =>
    cases k with
    | zero =>
      intro he
      apply hj
      have he2 : c0 = [] := he
      have ht : (c0 :: rest).take 1 = [c0] := rfl
      rw [ht, he2]
      rfl
    | succ k =>
      have hg : (c0 :: rest).get ⟨k + 1, hk⟩ = rest.get ⟨k, by simpa using hk⟩ := rfl
      rw [hg]
      exact htl _ (List.get_mem rest k _)

theorem join_take_getLast_ne {comps : List (List Char)} (hw : ∀ w ∈ comps, '/' ∉ w)
    (htl : ∀ w ∈ comps.tail, w ≠ []) {k : Nat} (hk : k < comps.length)
    (hj : joinWithSlash (comps.take (k + 1)) ≠ []) :
    (joinWithSlash (comps.take (k + 1))).getLast? ≠ some '/' := by
  have hne := comps_get_ne_nil htl hk hj
  rw [take_succ_eq comps k hk, joinWithSlash_concat_getLast _ _ hne]
  intro hsome
  exact hw _ (List.get_mem comps k hk) (List.mem_of_mem_getLast? hsome)

theorem stripSlash_stripSlash_mkPrefix {comps : List (List Char)}
    (hw : ∀ w ∈ comps, '/' ∉ w) (htl : ∀ w ∈ comps.tail, w ≠ []) {k : Nat}
    (hk : k < comps.length) :
    stripSlash (stripSlash (mkPrefix comps k)) = stripSlash (mkPrefix comps k) := by
  rw [mkPrefix_strip]
  by_cases hj : joinWithSlash (comps.take (k + 1)) = []
  · rw [if_pos hj]
    exact stripSlash_root
  · rw [if_neg hj]
    exact stripSlash_eq_self (join_take_getLast_ne hw htl hk hj)

theorem dropLast_take_succ (comps : List (List Char)) (k : Nat) (hk2 : k + 2 ≤ comps.length) :
    (comps.take (k + 2)).dropLast = comps.take (k + 1) := by
  rw [List.dropLast_eq_take, List.take_take, List.length_take]
  congr 1
  have h1 : (k + 2) ⊓ comps.length = k + 2 := min_eq_left hk2
  rw [h1]
  exact min_eq_left (by omega)

theorem join_take_two_ne {comps : List (List Char)} {k : Nat} (hk : k + 1 < comps.length) :
    joinWithSlash (comps.take (k + 2)) ≠ [] := by
  have hmin : (k + 2) ⊓ comps.length = k + 2 := min_eq_left (by omega)
  cases hc : comps.take (k + 2) with
  | nil =>
    have h2 : (comps.take (k + 2)).length = 0 := by rw [hc]; rfl
    rw [List.length_take, hmin] at h2
    omega
  | cons x l =>
    cases l with
    | nil =>
      have h2 : (comps.take (k + 2)).length = 1 := by rw [hc]; rfl
      rw [List.length_take, hmin] at h2
      omega
    | cons y l2 => exact joinWithSlash_cons2_ne x y l2

theorem parentDir_mkPrefix {comps : List (List Char)} (hw : ∀ w ∈ comps, '/' ∉ w)
    (htl : ∀ w ∈ comps.tail, w ≠ []) {k : Nat} (hk : k + 1 < comps.length) :
    parentDir (stripSlash (mkPrefix comps (k + 1))) = stripSlash (mkPrefix comps k) := by
  have hj2 : joinWithSlash (comps.take (k + 2)) ≠ [] := join_take_two_ne hk
  rw [mkPrefix_strip comps (k + 1)]
  rw [if_neg hj2]
  unfold parentDir
  have hstable : stripSlash (String.mk (joinWithSlash (comps.take (k + 2)))) =
      String.mk (joinWithSlash (comps.take (k + 2))) :=
    stripSlash_eq_self (join_take_getLast_ne hw htl (show k + 1 < comps.length from hk) hj2)
  rw [hstable]
  unfold osSplitHead
  rw [show (String.mk (joinWithSlash (comps.take (k + 2)))).data =
    joinWithSlash (comps.take (k + 2)) from rfl]
  rw [splitOnChar_joinWithSlash (comps.take (k + 2))
    (by
      intro he
      have h2 : (comps.take (k + 2)).length = 0 := by rw [he]; rfl
      rw [List.length_take, min_eq_left (show k + 2 ≤ comps.length by omega)] at h2
      omega)
    (fun w hwm => hw w (List.mem_of_mem_take hwm))]
  have hlen : (comps.take (k + 2)).length = k + 2 := by
    rw [List.length_take]
    exact min_eq_left (by omega)
  dsimp only []
  rw [if_neg (by rw [hlen]; omega)]
  rw [dropLast_take_succ comps k (by omega)]
  rw [mkPrefix_strip comps k]

theorem parentDir_mkPrefix_zero {comps : List (List Char)} (hw : ∀ w ∈ comps, '/' ∉ w)
    (hj0 : joinWithSlash (comps.take 1) ≠ []) :
    parentDir (stripSlash (mkPrefix comps 0)) = "" := by
  cases comps with
  | nil => exact absurd rfl hj0
  | cons c0 rest =>
    have ht : (c0 :: rest).take 1 = [c0] := rfl
    have hc0 : '/' ∉ c0 := hw c0 (by simp)
    have hQ : stripSlash (mkPrefix (c0 :: rest) 0) = String.mk c0 := by
      rw [mkPrefix_strip]
      rw [if_neg hj0]
      rfl
    rw [hQ]
    unfold parentDir
    have hstable : stripSlash (String.mk c0) = String.mk c0 := by
      apply stripSlash_eq_self
      intro hsome
      exact hc0 (List.mem_of_mem_getLast? hsome)
    rw [hstable]
    unfold osSplitHead
    rw [show (String.mk c0).data = c0 from rfl]
    rw [splitOnChar_singleton '/' c0 hc0]
    rfl

theorem os_mkdir_ok_eq {f g : FS} {p : String} (h : os_mkdir f p = .ok g) :
    g = { f with dirs := stripSlash p :: f.dirs } := by
  unfold os_mkdir at h
  dsimp only [] at h
  split at h
  · cases h
  · split at h
    · cases h
    · split at h
      · cases h
      · simp only [Except.ok.injEq] at h
        exact h.symm

theorem safeMkdirStep_prot (f : FS) (p : String) : (safeMkdirStep f p).prot = f.prot := by
  unfold safeMkdirStep
  split
  · rfl
  · cases hm : os_mkdir f p with
    | ok g => rw [os_mkdir_ok_eq hm]
    | error er => rfl

theorem foldl_safeMkdirStep_prot (l : List String) (f : FS) :
    (l.foldl safeMkdirStep f).prot = f.prot := by
  induction l generalizing f with
  | nil => rfl
  | cons a l ih => rw [List.foldl_cons, ih, safeMkdirStep_prot]

theorem foldl_safeMkdirStep_mono {l : List String} {f : FS} {q : String}
    (he : existsP f q = true) : existsP (l.foldl safeMkdirStep f) q = true := by
  induction l generalizing f with
  | nil => exact he
  | cons a l ih => exact ih (safeMkdirStep_mono he)

/-- The inductive heart of `safe_mkdir`: with no permission protection and the
root present, after processing the first `j` folder prefixes every one of
them exists. -/
theorem safe_mkdir_chain (comps : List (List Char)) (hw : ∀ w ∈ comps, '/' ∉ w)
    (htl : ∀ w ∈ comps.tail, w ≠ []) :
    ∀ (j : Nat), j ≤ comps.length → ∀ (f : FS), f.prot = [] → existsP f "/" = true →
      ∀ k, k < j →
        existsP (((List.range j).map (mkPrefix comps)).foldl safeMkdirStep f)
          (mkPrefix comps k) = true := by
  intro j
  induction j with
  | zero => intro _ f _ _ k hk; omega
  | succ j ih =>
    intro hj f hprot hroot k hk
    rw [List.range_succ, List.map_append, List.foldl_append]
    set F := ((List.range j).map (mkPrefix comps)).foldl safeMkdirStep f with hF
    simp only [List.map_cons, List.map_nil, List.foldl_cons, List.foldl_nil]
    have hFprot : F.prot = [] := by rw [hF, foldl_safeMkdirStep_prot]; exact hprot
    have hFroot : existsP F "/" = true := by rw [hF]; exact foldl_safeMkdirStep_mono hroot
    by_cases hkj : k < j
    · exact safeMkdirStep_mono (ih (by omega) f hprot hroot k hkj)
    · have hkj2 : k = j := by omega
      subst hkj2
      have hkl : k < comps.length := by omega
      unfold safeMkdirStep
      by_cases hex : existsP F (mkPrefix comps k) = true
      · rw [if_pos hex]
        exact hex
      · rw [if_neg hex]
        by_cases hj0 : joinWithSlash (comps.take (k + 1)) = []
        · exfalso
          apply hex
          have hs : stripSlash (mkPrefix comps k) = "/" := by
            rw [mkPrefix_strip, if_pos hj0]
          unfold existsP at hFroot ⊢
          rw [hs]
          rw [stripSlash_root] at hFroot
          exact hFroot
        · have hstable := stripSlash_stripSlash_mkPrefix hw htl hkl
          have hmk : os_mkdir F (mkPrefix comps k) =
              .ok { F with dirs := stripSlash (mkPrefix comps k) :: F.dirs } := by
            unfold os_mkdir
            dsimp only []
            rw [if_neg (by rw [hFprot]; simp)]
            rw [if_neg (by
              intro hcon
              apply hex
              unfold existsP at hcon ⊢
              rw [hstable] at hcon
              exact hcon)]
            rw [if_neg ?_]
            cases k with
            | zero =>
              rw [parentDir_mkPrefix_zero hw hj0]
              simp
            | succ m =>
              rw [parentDir_mkPrefix hw htl (by omega)]
              have hPm : existsP F (stripSlash (mkPrefix comps m)) = true := by
                have hIH := ih (by omega) f hprot hroot m (by omega)
                rw [← hF] at hIH
                unfold existsP at hIH ⊢
                rw [stripSlash_stripSlash_mkPrefix hw htl (by omega)]
                exact hIH
              simp [hPm]
          rw [hmk]
          unfold existsP
          simp [List.contains_cons]

/-- C8 counterexample: with folder `"a"` permission-protected, the underlying
`os.mkdir` fails with a permission error, yet `safe_mkdir` — whose bare
`except: pass` swallows *every* creation failure, not only "already exists"
races — returns normally with nothing created and no error surfaced to the
caller. -/
theorem c8_safe_mkdir_swallows_cex :
    os_mkdir ⟨["/"], [], [], 0, 0, ["a"], false, 0⟩ "a/" = .error (IOErr.mkdirPerm "a/") ∧
      safe_mkdir ⟨["/"], [], [], 0, 0, ["a"], false, 0⟩ "a" =
        ⟨["/"], [], [], 0, 0, ["a"], false, 0⟩ := by
  decide

/-- C8 amended: `safe_mkdir` creates the folder and every missing ancestor
when nothing blocks creation (no permission protection, root present, and a
well-formed `/`-separated name whose components after the first are
nonempty), and it tolerates already-existing directories (no-op); but it
swallows *all* creation failures — including permission errors, which never
surface (see the counterexample). -/
theorem c8_safe_mkdir_creates :
    (∀ (f : FS) (n : String), f.prot = [] → existsP f "/" = true →
        (∀ w ∈ (intermediaryFolders n).tail, w ≠ []) →
        ∀ q ∈ prefixesOf n, existsP (safe_mkdir f n) q = true) ∧
    (∀ (f : FS) (n : String), (∀ q ∈ prefixesOf n, existsP f q = true) →
        safe_mkdir f n = f) := by
  constructor
  · intro f n hprot hroot htl q hq
    have hw : ∀ w ∈ intermediaryFolders n, '/' ∉ w := by
      intro w hwm
      apply splitOnChar_no_sep '/' n.data w
      unfold intermediaryFolders at hwm
      dsimp only [] at hwm
      by_cases hc : (splitOnChar '/' n.data).getLast? = some []
      · rw [if_pos hc] at hwm
        exact List.mem_of_mem_dropLast hwm
      · rw [if_neg hc] at hwm
        exact hwm
    obtain ⟨k, hk, he⟩ := List.mem_map.mp hq
    have hk2 := List.mem_range.mp hk
    rw [← he]
    unfold safe_mkdir prefixesOf
    exact safe_mkdir_chain (intermediaryFolders n) hw htl _ le_rfl f hprot hroot k hk2
  · intro f n hall
    unfold safe_mkdir
    have hgen : ∀ (l : List String), (∀ q ∈ l, existsP f q = true) →
        l.foldl safeMkdirStep f = f := by
      intro l
      induction l with
      | nil => intro _; rfl
      | cons a l ih =>
        intro h
        rw [List.foldl_cons,
          show safeMkdirStep f a = f from by
            unfold safeMkdirStep; rw [if_pos (h a (by simp))]]
        exact ih (fun q hq => h q (List.mem_cons_of_mem a hq))
    exact hgen _ hall

/-- C8 witness: the creation half applied concretely — `safe_mkdir` on
`"/x/y"` over a filesystem holding only the root creates both `/x/` and
`/x/y/`. -/
theorem c8_safe_mkdir_creates_witness :
    existsP (safe_mkdir ⟨["/"], [], [], 0, 0, [], false, 0⟩ "/x/y") "/x/y/" = true :=
  c8_safe_mkdir_creates.1 ⟨["/"], [], [], 0, 0, [], false, 0⟩ "/x/y" rfl (by decide)
    (by decide) "/x/y/" (by decide)

/-! ## C7: repeated resolution of the same remote file -/

/-- C7 counterexample: first call caches `/remote/a` (20 bytes, disk at
50/100 used) and returns the local path; the copy raises used space to 70, so
the second call's free-space pre-check (`10 * (70 + 20) < 9 * 100`) now
fails and the call returns the *remote* path — not the same effective local
path, even though a valid local copy exists and no copy is performed. -/
theorem c7_second_call_cex :
    ((load_dataset ⟨"/remote", "/local", 7⟩ id
        ⟨["/", "/remote", "/local"], ["/remote/a"], [("/remote/a", 20)], 100, 50, [], false, 0⟩
        "/remote/a").toOption.map (fun x => x.1) = some "/local/a") ∧
    (secondCall ⟨"/remote", "/local", 7⟩ "/remote/a"
        (load_dataset ⟨"/remote", "/local", 7⟩ id
          ⟨["/", "/remote", "/local"], ["/remote/a"], [("/remote/a", 20)], 100, 50, [], false, 0⟩
          "/remote/a") = some "/remote/a") ∧
    "/remote/a" ≠ "/local/a" := by
  decide

/-- C7 amended: when the mapped local file already exists (the state a
successful caching call leaves behind), a repeat `load_dataset` call never
runs the copy command, and whenever it proceeds past the free-space pre-check
(nonempty event trace) it returns that same mapped local path; but the
pre-check itself can now fail — the first copy having consumed disk space —
in which case the remote path is returned (see the counterexample). -/
theorem c7_second_call_no_copy (c : Config) (f : FS) (r : String)
    (hmap : existsP f (mappedLocal c r) = true) :
    (∀ q u s, load_dataset c id f r = .ok (q, u, s) → ∀ x, Ev.system x ∉ s) ∧
    (∀ q u s, load_dataset c id f r = .ok (q, u, s) → s ≠ [] → q = mappedLocal c r) := by
  have hbranch : (∃ u, load_dataset c id f r = .ok (r, u, [])) ∨
      (∃ er, load_dataset c id f r = .error er) ∨
      (∃ u d, load_dataset c id f r = .ok (mappedLocal c r, u,
        [Ev.lockAcquire (getWriteLockName (mappedLocal c r)), Ev.readLock d,
          Ev.lockRelease])) := by
    by_cases hl : c.dataset_local_dir = ""
    · exact Or.inl ⟨f, by unfold load_dataset; simp [hl]⟩
    by_cases h2 : existsP f r = true
    case neg => exact Or.inl ⟨f, by unfold load_dataset; simp [hl, h2]⟩
    by_cases h3 : isfileP f r = true
    case neg => exact Or.inl ⟨f, by unfold load_dataset; simp [hl, h2, h3]⟩
    cases hck : check_enough_space c (safe_mkdir f c.dataset_local_dir) r (mappedLocal c r) with
    | error er =>
      exact Or.inr (Or.inl ⟨er, by unfold load_dataset; simp [hl, h2, h3, hck]⟩)
    | ok b =>
      cases b with
      | false =>
        exact Or.inl ⟨safe_mkdir f c.dataset_local_dir, by
          unfold load_dataset; simp [hl, h2, h3, hck]⟩
      | true =>
        have hex : existsP (safe_mkdir (safe_mkdir f c.dataset_local_dir)
            (osSplitHead (mappedLocal c r))) (mappedLocal c r) = true :=
          safe_mkdir_mono (safe_mkdir_mono hmap)
        cases hrl : getReadLock c (safe_mkdir (safe_mkdir f c.dataset_local_dir)
            (osSplitHead (mappedLocal c r))) (mappedLocal c r) with
        | error er =>
          exact Or.inr (Or.inl ⟨er, by unfold load_dataset; simp [hl, h2, h3, hck, hex, hrl]⟩)
        | ok pr =>
          refine Or.inr (Or.inr ⟨pr.1, pr.2, ?_⟩)
          unfold load_dataset
          simp [hl, h2, h3, hck, hex, hrl]
  constructor
  · intro q u s heq x
    rcases hbranch with ⟨u2, hb⟩ | ⟨er, hb⟩ | ⟨u2, d, hb⟩ <;> rw [heq] at hb
    · have hs : s = [] := by simp only [Except.ok.injEq, Prod.mk.injEq] at hb; exact hb.2.2
      subst hs
      simp
    · cases hb
    · have hs : s = [Ev.lockAcquire (getWriteLockName (mappedLocal c r)), Ev.readLock d,
          Ev.lockRelease] := by
        simp only [Except.ok.injEq, Prod.mk.injEq] at hb
        exact hb.2.2
      subst hs
      simp
  · intro q u s heq hne
    rcases hbranch with ⟨u2, hb⟩ | ⟨er, hb⟩ | ⟨u2, d, hb⟩ <;> rw [heq] at hb
    · exact absurd (by simp only [Except.ok.injEq, Prod.mk.injEq] at hb; exact hb.2.2) hne
    · cases hb
    · simp only [Except.ok.injEq, Prod.mk.injEq] at hb
      exact hb.1

/-- C7 witness: with the local copy present (and a fresh marker timestamp),
the repeat call returns the mapped local path. -/
theorem c7_second_call_no_copy_witness :
    "/local/a" = mappedLocal ⟨"/remote", "/local", 7⟩ "/remote/a" :=
  (c7_second_call_no_copy ⟨"/remote", "/local", 7⟩
      ⟨["/local/a.readlock.7.0", "/", "/remote", "/local"], ["/local/a", "/remote/a"],
        [("/local/a", 20), ("/remote/a", 20)], 100, 30, [], false, 1⟩
      "/remote/a" (by decide)).2 "/local/a"
    ⟨["/local/a.readlock.7.1", "/local/a.readlock.7.0", "/", "/remote", "/local"],
      ["/local/a", "/remote/a"], [("/local/a", 20), ("/remote/a", 20)], 100, 30, [], false, 1⟩
    [Ev.lockAcquire "/local/a.writelock", Ev.readLock "/local/a.readlock.7.1", Ev.lockRelease]
    (by decide) (by decide)
